import Mathlib

/-!
Shallow embedding of the Chord_Constructor music engine (`src/tools.py`):
the chromatic/major-scale/chord-quality tables, the mode resolver
(`ChordGenerator.__init__` together with `_get_mode_scale`), the chord
classifier (`_construct_chord_dict` with `_get_chrom_and_major_scale`) and the
chord enumerator (`ChordGenerator.get_chords` with `_get_chord_positions`).

Conventions of the embedding:
* note symbols are an inductive type `Note`; the catalog keys produced by the
  Python f-strings are `String`s built with `noteStr`;
* every Python operation that can raise (`list.index`, dict lookup misses,
  out-of-range numpy indexing, `dict.get` returning `None` that is used later)
  is modelled with `Option`, `none` meaning the computation fails;
* `np.roll(xs, -n)` is the left rotation `rotl xs n`;
* a Python dict that is only ever updated one key at a time is modelled as the
  list of its insertions in order; a lookup takes the last insertion for a key
  (`catFind`), which is exactly `dict.update` / `dict[key]` semantics.
-/

namespace ChordConstructor

/-- Left rotation of a list by `n` places (models `np.roll(xs, -n)`,
which reduces the shift modulo the length). -/
def rotl {α : Type} (l : List α) (n : Nat) : List α :=
  l.drop (n % l.length) ++ l.take (n % l.length)

/-- First index of `a` in `l` (models Python `list.index`; `none` models the
`ValueError` raised when the element is absent). -/
def idxOf? {α : Type} [DecidableEq α] (a : α) : List α → Option Nat
  | [] => none
  | b :: t => if b = a then some 0 else (idxOf? a t).map (· + 1)

/-- Option-valued map: `none` as soon as one element fails (models a Python
list comprehension whose body can raise). -/
def omap {α β : Type} (f : α → Option β) : List α → Option (List β)
  | [] => some []
  | a :: t =>
    match f a with
    | none => none
    | some b => (omap f t).map (fun l => b :: l)

/-- Running sums of a list starting from `acc` (models `np.cumsum`). -/
def cumsumFrom (acc : Nat) : List Nat → List Nat
  | [] => []
  | x :: t => (acc + x) :: cumsumFrom (acc + x) t

/-- The note symbols occurring in the two chromatic scales and in the
major-scale table of `tools.py` (`s` suffix = sharp, `b` suffix = flat). -/
inductive Note : Type
  | C | Cs | Db | D | Ds | Eb | E | Es | F | Fs | Gb | G | Gs | Ab | A | As | Bb | B | Bs | Cb | Fb
  deriving DecidableEq, Repr

/-- The string spelling of each note symbol, as written in `tools.py`. -/
def noteStr : Note → String
  | .C => "C" | .Cs => "C#" | .Db => "Db" | .D => "D" | .Ds => "D#" | .Eb => "Eb"
  | .E => "E" | .Es => "E#" | .F => "F" | .Fs => "F#" | .Gb => "Gb" | .G => "G"
  | .Gs => "G#" | .Ab => "Ab" | .A => "A" | .As => "A#" | .Bb => "Bb" | .B => "B"
  | .Bs => "B#" | .Cb => "Cb" | .Fb => "Fb"

/-- Chromatic pitch position (0-11) denoted by a note symbol; enharmonic
spellings map to the same position. -/
def pitchClass : Note → Nat
  | .C => 0 | .Cs => 1 | .Db => 1 | .D => 2 | .Ds => 3 | .Eb => 3
  | .E => 4 | .Es => 5 | .F => 5 | .Fs => 6 | .Gb => 6 | .G => 7
  | .Gs => 8 | .Ab => 8 | .A => 9 | .As => 10 | .Bb => 10 | .B => 11
  | .Bs => 0 | .Cb => 11 | .Fb => 4

/-- `self.chromatic_sharps` in `ChordGenerator.__init__`. -/
def chromatic_sharps : List Note :=
  [.C, .Cs, .D, .Ds, .E, .F, .Fs, .G, .Gs, .A, .As, .B]

/-- `self.chromatic_flats` in `ChordGenerator.__init__`. -/
def chromatic_flats : List Note :=
  [.C, .Db, .D, .Eb, .E, .F, .Gb, .G, .Ab, .A, .Bb, .B]

/-- `self.major_scale_dict` in `ChordGenerator.__init__` (15 entries; any
other symbol is a lookup miss). -/
def major_scale_dict : Note → Option (List Note)
  | .C => some [.C, .D, .E, .F, .G, .A, .B]
  | .Db => some [.Db, .Eb, .F, .Gb, .Ab, .Bb, .C]
  | .Cs => some [.Cs, .Ds, .Es, .Fs, .Gs, .As, .Bs]
  | .D => some [.D, .E, .Fs, .G, .A, .B, .Cs]
  | .Eb => some [.Eb, .F, .G, .Ab, .Bb, .C, .D]
  | .E => some [.E, .Fs, .Gs, .A, .B, .Cs, .Ds]
  | .F => some [.F, .G, .A, .Bb, .C, .D, .E]
  | .Gb => some [.Gb, .Ab, .Bb, .Cb, .Db, .Eb, .F]
  | .Fs => some [.Fs, .Gs, .As, .B, .Cs, .Ds, .Es]
  | .G => some [.G, .A, .B, .C, .D, .E, .Fs]
  | .Ab => some [.Ab, .Bb, .C, .Db, .Eb, .F, .G]
  | .A => some [.A, .B, .Cs, .D, .E, .Fs, .Gs]
  | .Bb => some [.Bb, .C, .D, .Eb, .F, .G, .A]
  | .B => some [.B, .Cs, .Ds, .E, .Fs, .Gs, .As]
  | .Cb => some [.Cb, .Db, .Eb, .Fb, .Gb, .Ab, .Bb]
  | _ => none

/-- `cof_notes_conv_dict` in `_get_chrom_and_major_scale`: circle-of-fifths
spelling normalisation applied to the root before any lookup. -/
def cofConvert : Note → Note
  | .As => .Bb | .Ds => .Eb | .Gs => .Ab | .Es => .F | .Fb => .E | .Bs => .C | .Cb => .B
  | n => n

/-- `special_notes_dict` in `_get_chrom_and_major_scale`: conversion applied to
every note of the looked-up major scale. -/
def specialNotes : Note → Note
  | .Es => .F | .Fb => .E | .Bs => .C | .Cb => .B
  | n => n

/-- The literal membership list in `_get_chrom_and_major_scale` step 1 that
chooses the flat-spelled chromatic scale for the root. -/
def flatRoots : List Note :=
  [.F, .As, .Bb, .Ds, .Eb, .Gs, .Ab, .Db, .Gb, .Cb]

/-- `self.chord_names_dict`: the chord-quality table in insertion order
(the classifier scans it in this order). -/
def chord_names_dict : List (String × List Int) :=
  [("Major", [0, 0, 0]),
   ("Minor", [0, -1, 0]),
   ("Diminished", [0, -1, -1]),
   ("Augmented", [0, 0, 1]),
   ("Suspended 4th", [0, 1, 0]),
   ("Suspended 2nd", [0, -2, 0]),
   ("Dominant 7th", [0, 0, 0, -1]),
   ("Minor 7th", [0, -1, 0, -1]),
   ("Major 7th", [0, 0, 0, 0]),
   ("Diminished 7th", [0, -1, -1, -2]),
   ("Half Dim 7th", [0, -1, -1, -1]),
   ("6th", [0, 0, 0, 0]),
   ("Minor 6th", [0, -1, 0, 0]),
   ("Added 9th", [0, 0, 0, 0]),
   ("7th sharp 5", [0, 0, 1, -1]),
   ("7th flat 5", [0, 0, -1, -1]),
   ("9th", [0, 0, 0, -1, 0]),
   ("Minor 9th", [0, -1, 0, -1, 0]),
   ("Major 9th", [0, 0, 0, 0, 0]),
   ("7th sharp 9", [0, 0, 0, -1, 1]),
   ("7th flat 9", [0, 0, 0, -1, -1]),
   ("11th", [0, 0, 0, -1, 0, 0]),
   ("Minor 11th", [0, -1, 0, -1, 0, 0]),
   ("7th sharp 11th", [0, 0, 0, -1, 0, 1]),
   ("13th", [0, 0, 0, -1, 0, 0, 0]),
   ("Minor 13th", [0, -1, 0, -1, 0, 0, 0])]

/-- `roll_dict` in `_get_mode_scale`: the Python dict stores the negative
`np.roll` shift per mode; `np.roll(xs, -k)` is `rotl xs k`, so the left
rotation amount is stored here.  `none` models `dict.get` missing (which makes
the subsequent `np.roll(steps, None)` raise). -/
def roll_dict : String → Option Nat
  | "ionian" => some 0
  | "dorian" => some 1
  | "phrygian" => some 2
  | "lydian" => some 3
  | "mixolydian" => some 4
  | "aeolian" => some 5
  | "locrian" => some 6
  | _ => none

/-- `ionian_steps` in `_get_mode_scale`. -/
def ionian_steps : List Nat := [2, 2, 1, 2, 2, 2, 1]

/-- `_get_mode_scale(mode, mode_chromatic)`: rotate the step vector, take
cumulative positions (0 prepended, last dropped), index the rooted chromatic
scale at those positions.  `none` models an unknown mode name or an
out-of-range index. -/
def get_mode_scale (mode : String) (mode_chromatic : List Note) : Option (List Note) :=
  match roll_dict mode with
  | none => none
  | some k =>
    let steps := rotl ionian_steps k
    let positions := 0 :: (cumsumFrom 0 steps).dropLast
    omap (fun i => mode_chromatic[i]?) positions

/-- `_get_chrom_and_major_scale(note, major_scale_dict)`: normalise the root
spelling, pick the flat or sharp chromatic scale by the membership rule, roll
it to root the note, look up the major scale and normalise its spellings. -/
def get_chrom_and_major_scale (note0 : Note) : Option (List Note × List Note) :=
  let note := cofConvert note0
  let chromatic := if note ∈ flatRoots then chromatic_flats else chromatic_sharps
  match idxOf? note chromatic with
  | none => none
  | some i =>
    match major_scale_dict note with
    | none => none
    | some ms => some (rotl chromatic i, ms.map specialNotes)

/-- Steps 1-4 of the per-degree body of `ChordGenerator.get_chords`: the
interval signature `scale_diff` (mode positions minus major positions inside
the chromatic scale rooted at `note`) and the rolled mode scale.
`numpy` subtraction of arrays of different lengths raises, hence the length
guard before `zipWith`. -/
def degree_data (mode_scale mode_chromatic : List Note) (note : Note) :
    Option (List Int × List Note) :=
  match get_chrom_and_major_scale note with
  | none => none
  | some (rolled_chromatic, major_scale) =>
    match idxOf? note mode_scale with
    | none => none
    | some i1 =>
      match idxOf? note mode_chromatic with
      | none => none
      | some i2 =>
        match omap (fun e => idxOf? e rolled_chromatic) major_scale with
        | none => none
        | some major_positions =>
          match omap (fun e => idxOf? e (rotl mode_chromatic i2)) (rotl mode_scale i1) with
          | none => none
          | some mode_positions =>
            if mode_positions.length = major_positions.length then
              some (List.zipWith (fun (m mj : Nat) => (m : Int) - (mj : Int))
                      mode_positions major_positions,
                    rotl mode_scale i1)
            else none

/-- Is `sub` a contiguous sublist of the second argument?  Helper for
`substr`. -/
def substrAux (sub : List Char) : List Char → Bool
  | [] => sub.isEmpty
  | c :: t => sub.isPrefixOf (c :: t) || substrAux sub t

/-- Models the Python substring test `sub in s`. -/
def substr (sub s : String) : Bool := substrAux sub.toList s.toList

/-- The scan of `chord_names_dict.items()` inside `_construct_chord_dict`,
taking the entries still to visit as last argument.  `note` is the already
extracted `mode_chord[0]`.  At the first entry whose signature equals the
chord's: if the last two selected positions are the 6th and 9th degrees
(1-indexed) the name is forced to `6th added 9`; else if the signature has
length at least 4 and the decimal string of the 1-indexed final position does
not occur in the entry's name, the scan continues; else the entry's name is
used.  An exhausted scan yields `Unknown`.  (Python's `chord_positions[-1]`
and `[-2]` are total here via `getLastD`; every call from the enumerator
passes at least three positions, where both agree with Python.) -/
def ccd_loop (note : String) (chord_diff_code : List Int) (mode_chord : List String)
    (chord_positions : List Nat) : List (String × List Int) → String × List String
  | [] => (note ++ "_Unknown", mode_chord)
  | (name, value) :: rest =>
    if value = chord_diff_code then
      if chord_positions.dropLast.getLastD 0 + 1 = 6 ∧ chord_positions.getLastD 0 + 1 = 9 then
        (note ++ "_6th added 9", mode_chord)
      else if 4 ≤ chord_diff_code.length ∧ substr (Nat.repr (chord_positions.getLastD 0 + 1)) name = false then
        ccd_loop note chord_diff_code mode_chord chord_positions rest
      else
        (note ++ "_" ++ name, mode_chord)
    else ccd_loop note chord_diff_code mode_chord chord_positions rest

/-- `_construct_chord_dict(chord_diff_code, mode_chord, chord_positions,
chord_names_dict)`: the single `{key: notes}` item returned, as a pair.
`mode_chord` is the already padded 7-slot list of note strings (its head is
the root; every call from the enumerator passes a non-empty list, where
`headD` agrees with Python's `mode_chord[0]`). -/
def construct_chord_dict (chord_diff_code : List Int) (mode_chord : List String)
    (chord_positions : List Nat) (table : List (String × List Int)) : String × List String :=
  ccd_loop (mode_chord.headD "") chord_diff_code mode_chord chord_positions table

/-- `positions_dict` in `_get_chord_positions`. -/
def positions_dict : String → Option (List (List Nat))
  | "3" => some [[0, 2, 4]]
  | "4" => some [[0, 2, 4, 5], [0, 2, 4, 6], [0, 2, 4, 8]]
  | "5" => some [[0, 2, 4, 5, 8], [0, 2, 4, 6, 8]]
  | "6" => some [[0, 2, 4, 6, 8, 10]]
  | "7" => some [[0, 2, 4, 6, 8, 10, 12]]
  | _ => none

/-- Helper for `splitDash`. -/
def splitDashAux (acc : List Char) : List Char → List String
  | [] => [String.mk acc.reverse]
  | c :: t =>
    if c = '-' then String.mk acc.reverse :: splitDashAux [] t
    else splitDashAux (c :: acc) t

/-- Models Python `chord_length.split('-')`. -/
def splitDash (s : String) : List String := splitDashAux [] s.toList

/-- `_get_chord_positions(chord_length)`: split the request on `-`, look every
component up in `positions_dict` and concatenate (`none` models the `TypeError`
from `extend(None)` on an unknown component). -/
def get_chord_positions (chord_length : String) : Option (List (List Nat)) :=
  (omap positions_dict (splitDash chord_length)).map List.flatten

/-- Steps 5-6 of the inner loop of `get_chords` for one degree pattern: select
the signature and the notes from the duplicated arrays, pad the notes with
empty strings up to 7 slots, classify. -/
def chord_entry (scale_diff_repeated : List Int) (scale_repeated : List Note)
    (chord_positions : List Nat) : Option (String × List String) :=
  match omap (fun i => scale_diff_repeated[i]?) chord_positions with
  | none => none
  | some chord_diff =>
    match omap (fun i => scale_repeated[i]?) chord_positions with
    | none => none
    | some notes =>
      let mode_chord := notes.map noteStr ++ List.replicate (7 - notes.length) ""
      some (construct_chord_dict chord_diff mode_chord chord_positions chord_names_dict)

/-- The whole body of the outer loop of `get_chords` for one scale degree:
compute the signature, duplicate signature and rolled scale, and build one
catalog item per requested pattern (in pattern order). -/
def degree_entries (mode_scale mode_chromatic : List Note) (note : Note)
    (patterns : List (List Nat)) : Option (List (String × List String)) :=
  match degree_data mode_scale mode_chromatic note with
  | none => none
  | some (scale_diff, rolled_mode_scale) =>
    omap (chord_entry (scale_diff ++ scale_diff) (rolled_mode_scale ++ rolled_mode_scale))
      patterns

/-- All catalog insertions performed by `get_chords`, in order: degrees outer,
patterns inner.  (`_get_chord_positions` is called once per degree in the
source with the same argument, so hoisting it out of the loop is
behaviour-preserving.) -/
def all_entries (mode_scale mode_chromatic : List Note) (chord_length : String) :
    Option (List (String × List String)) :=
  match get_chord_positions chord_length with
  | none => none
  | some patterns =>
    match omap (fun note => degree_entries mode_scale mode_chromatic note patterns) mode_scale with
    | none => none
    | some ll => some ll.flatten

/-- The state of a `ChordGenerator` object: the constructor arguments, the
derived rooted chromatic scale and mode scale, and the mutable `chords_dict`
slot (`none` until `get_chords` has run; insertions kept in order). -/
structure ChordGenerator where
  key : Note
  mode : String
  mode_chromatic : List Note
  mode_scale : List Note
  chords_dict : Option (List (String × List String))
  deriving DecidableEq, Repr

/-- The chromatic spelling chosen by the mode: sharps for lydian, flats
otherwise (`self.chromatic_flats if self.mode is not 'lydian' else
self.chromatic_sharps`; CPython interns these literals, so `is not` behaves as
inequality here). -/
def chromOf (mode : String) : List Note :=
  if mode = "lydian" then chromatic_sharps else chromatic_flats

/-- `ChordGenerator.__init__(key, church_mode)`: pick the spelling, roll it so
the key is first (`none` models the `ValueError` when the key is not in the
chosen chromatic scale), derive the mode scale. -/
def mkChordGenerator (key : Note) (mode : String) : Option ChordGenerator :=
  match idxOf? key (chromOf mode) with
  | none => none
  | some i =>
    let rolled := rotl (chromOf mode) i
    match get_mode_scale mode rolled with
    | none => none
    | some scale => some ⟨key, mode, rolled, scale, none⟩

/-- `ChordGenerator.get_chords(chord_length)`: rebuild the whole catalog from
the stored scale and chromatic, and store it in `chords_dict`. -/
def get_chords (st : ChordGenerator) (chord_length : String) : Option ChordGenerator :=
  match all_entries st.mode_scale st.mode_chromatic chord_length with
  | none => none
  | some entries => some { st with chords_dict := some entries }

/-- Dict lookup over the insertion list: last write for a key wins, exactly as
`dict.update` followed by `dict[key]`. -/
def catFind (k : String) (es : List (String × List String)) : Option (List String) :=
  ((es.filter (fun e => e.1 == k)).getLast?).map (fun e => e.2)

/-- Convenience composition: construct the generator, run `get_chords`, read
the catalog. -/
def catalogOf (key : Note) (mode chord_length : String) :
    Option (List (String × List String)) :=
  match mkChordGenerator key mode with
  | none => none
  | some st =>
    match get_chords st chord_length with
    | none => none
    | some st' => st'.chords_dict

/-- The mode scale computed by the constructor. -/
def scaleOf (key : Note) (mode : String) : Option (List Note) :=
  (mkChordGenerator key mode).map (fun st => st.mode_scale)

/-- The seven church modes accepted by `roll_dict`. -/
def modes7 : List String :=
  ["ionian", "dorian", "phrygian", "lydian", "mixolydian", "aeolian", "locrian"]

/-- Every degree pattern the enumerator can ever use: the patterns of all five
supported sizes, via `_get_chord_positions`. -/
def all_patterns : List (List Nat) :=
  (get_chord_positions "3-4-5-6-7").getD []

/-- Check used in the enumeration-safety analysis: the degree data of `n`
exists and both the signature and the rolled scale have length 7. -/
def degreeOk (ms mc : List Note) (n : Note) : Bool :=
  match degree_data ms mc n with
  | some (d, r) => d.length == 7 && r.length == 7
  | none => false

/-- Check: the key yields a generator whose every scale degree has
well-formed degree data. -/
def keyOk (mode : String) (key : Note) : Bool :=
  match mkChordGenerator key mode with
  | some st => st.mode_scale.all fun n => degreeOk st.mode_scale st.mode_chromatic n
  | none => false

/-- Check: `keyOk` holds for every key of the mode's chromatic spelling. -/
def configOk (mode : String) : Bool :=
  (chromOf mode).all (keyOk mode)

/-- Check: the mode-scale invariants of key C for one mode. -/
def scaleInvariantsOk (m : String) : Bool :=
  match mkChordGenerator Note.C m with
  | some st =>
    st.mode_scale.length == 7 && (st.mode_scale.head? == some Note.C)
      && decide (st.mode_scale.map pitchClass).Nodup
  | none => false

/-- Stated from the spec's disambiguation rule in §4.3 (not from the source):
the names of the chord-quality-table entries whose signature equals the
chord's and whose name contains the decimal string of the 1-indexed final
selected degree position. -/
def specDisambiguated (d : List Int) (pos : List Nat) : List String :=
  (chord_names_dict.filter fun e => e.2 == d && substr (Nat.repr (pos.getLastD 0 + 1)) e.1).map
    fun e => e.1

/-- Concrete generator state: key C, mode ionian, fresh (no catalog yet). -/
def genC_ionian : ChordGenerator :=
  ⟨Note.C, "ionian", chromatic_flats,
   [Note.C, Note.D, Note.E, Note.F, Note.G, Note.A, Note.B], none⟩

/-- The size-3 catalog of key C ionian, as its insertion list. -/
def catC_ionian_3 : List (String × List String) :=
  [("C_Major", ["C", "E", "G", "", "", "", ""]),
   ("D_Minor", ["D", "F", "A", "", "", "", ""]),
   ("E_Minor", ["E", "G", "B", "", "", "", ""]),
   ("F_Major", ["F", "A", "C", "", "", "", ""]),
   ("G_Major", ["G", "B", "D", "", "", "", ""]),
   ("A_Minor", ["A", "C", "E", "", "", "", ""]),
   ("B_Diminished", ["B", "D", "F", "", "", "", ""])]

/-- `genC_ionian` after `get_chords('3')` has filled the catalog slot. -/
def genC_ionian_filled : ChordGenerator :=
  { genC_ionian with chords_dict := some catC_ionian_3 }

/-- Concrete generator state: key C, mode lydian, fresh. -/
def genC_lydian : ChordGenerator :=
  ⟨Note.C, "lydian", chromatic_sharps,
   [Note.C, Note.D, Note.E, Note.Fs, Note.G, Note.A, Note.B], none⟩

/-! ### Structural lemmas about the embedding's building blocks -/

theorem omap_length {α β : Type} {f : α → Option β} :
    ∀ {l : List α} {ys : List β}, omap f l = some ys → ys.length = l.length := by
  intro l
  induction l with
  | nil =>
    intro ys h
    simp only [omap, Option.some.injEq] at h
    subst h
    rfl
  | cons a t ih =>
    intro ys h
    simp only [omap] at h
    cases hfa : f a with
    | none => rw [hfa] at h; simp at h
    | some b =>
      rw [hfa] at h
      cases hot : omap f t with
      | none => rw [hot] at h; simp at h
      | some zs =>
        rw [hot] at h
        simp only [Option.map_some', Option.some.injEq] at h
        subst h
        simp [ih hot]

theorem omap_mem {α β : Type} {f : α → Option β} :
    ∀ {l : List α} {ys : List β}, omap f l = some ys →
      ∀ b ∈ ys, ∃ a ∈ l, f a = some b := by
  intro l
  induction l with
  | nil =>
    intro ys h b hb
    simp only [omap, Option.some.injEq] at h
    subst h
    exact absurd hb (List.not_mem_nil b)
  | cons a t ih =>
    intro ys h b hb
    simp only [omap] at h
    cases hfa : f a with
    | none => rw [hfa] at h; simp at h
    | some c =>
      rw [hfa] at h
      cases hot : omap f t with
      | none => rw [hot] at h; simp at h
      | some zs =>
        rw [hot] at h
        simp only [Option.map_some', Option.some.injEq] at h
        subst h
        rcases List.mem_cons.mp hb with hb | hb
        · exact ⟨a, List.mem_cons_self a t, hb ▸ hfa⟩
        · obtain ⟨x, hx, hfx⟩ := ih hot b hb
          exact ⟨x, List.mem_cons_of_mem a hx, hfx⟩

theorem omap_isSome {α β : Type} {f : α → Option β} :
    ∀ {l : List α}, (∀ a ∈ l, (f a).isSome) → (omap f l).isSome := by
  intro l
  induction l with
  | nil => intro _; rfl
  | cons a t ih =>
    intro h
    simp only [omap]
    cases hfa : f a with
    | none =>
      have := h a (List.mem_cons_self a t)
      rw [hfa] at this
      simp at this
    | some b =>
      have ht := ih fun x hx => h x (List.mem_cons_of_mem a hx)
      cases hot : omap f t with
      | none => rw [hot] at ht; simp at ht
      | some zs => simp

theorem idxOf?_eq_none_of_not_mem {α : Type} [DecidableEq α] {a : α} :
    ∀ {l : List α}, a ∉ l → idxOf? a l = none := by
  intro l
  induction l with
  | nil => intro _; rfl
  | cons b t ih =>
    intro h
    have hba : ¬b = a := fun hba => h (List.mem_cons.mpr (Or.inl hba.symm))
    have hat : a ∉ t := fun ha => h (List.mem_cons_of_mem b ha)
    simp only [idxOf?, if_neg hba, ih hat, Option.map_none']

theorem idxOf?_isSome_of_mem {α : Type} [DecidableEq α] {a : α} :
    ∀ {l : List α}, a ∈ l → (idxOf? a l).isSome := by
  intro l
  induction l with
  | nil => intro h; exact absurd h (List.not_mem_nil a)
  | cons b t ih =>
    intro h
    simp only [idxOf?]
    by_cases hba : b = a
    · rw [if_pos hba]; rfl
    · rw [if_neg hba]
      have hat : a ∈ t := by
        rcases List.mem_cons.mp h with h' | h'
        · exact absurd h'.symm hba
        · exact h'
      have ht := ih hat
      cases hi : idxOf? a t with
      | none => rw [hi] at ht; simp at ht
      | some i => simp

theorem mem_rotl {α : Type} {a : α} {l : List α} {n : Nat} : a ∈ rotl l n ↔ a ∈ l := by
  unfold rotl
  constructor
  · intro h
    rcases List.mem_append.mp h with h | h
    · exact List.mem_of_mem_drop h
    · exact List.mem_of_mem_take h
  · intro h
    have hl := List.take_append_drop (n % l.length) l
    rw [← hl] at h
    rcases List.mem_append.mp h with h | h
    · exact List.mem_append.mpr (Or.inr h)
    · exact List.mem_append.mpr (Or.inl h)

theorem mem_of_getElem?_eq {α : Type} {l : List α} {i : Nat} {a : α}
    (h : l[i]? = some a) : a ∈ l := by
  obtain ⟨hi, ha⟩ := List.getElem?_eq_some.mp h
  exact ha ▸ List.getElem_mem hi

theorem flatten_length_const {α : Type} (k : Nat) :
    ∀ ll : List (List α), (∀ y ∈ ll, y.length = k) →
      ll.flatten.length = ll.length * k := by
  intro ll
  induction ll with
  | nil => intro _; simp
  | cons y t ih =>
    intro h
    have hy := h y (List.mem_cons_self y t)
    have ht := ih fun z hz => h z (List.mem_cons_of_mem y hz)
    simp only [List.flatten_cons, List.length_append, List.length_cons, ht, hy,
      Nat.succ_mul, Nat.add_comm]

theorem ccd_loop_snd (note : String) (d : List Int) (mc : List String) (pos : List Nat) :
    ∀ table : List (String × List Int), (ccd_loop note d mc pos table).2 = mc := by
  intro table
  induction table with
  | nil => rfl
  | cons e rest ih =>
    obtain ⟨name, value⟩ := e
    simp only [ccd_loop]
    split
    · split
      · rfl
      · split
        · exact ih
        · rfl
    · exact ih

theorem ccd_loop_of_no_match (note : String) (d : List Int) (mc : List String) (pos : List Nat) :
    ∀ table : List (String × List Int), (∀ e ∈ table, e.2 ≠ d) →
      ccd_loop note d mc pos table = (note ++ "_Unknown", mc) := by
  intro table
  induction table with
  | nil => intro _; rfl
  | cons e rest ih =>
    intro h
    obtain ⟨name, value⟩ := e
    have hv : value ≠ d := h (name, value) (List.mem_cons_self _ _)
    simp only [ccd_loop, if_neg hv]
    exact ih fun x hx => h x (List.mem_cons_of_mem _ hx)

theorem ccd_loop_of_match69 (note : String) (d : List Int) (mc : List String) (pos : List Nat)
    (h6 : pos.dropLast.getLastD 0 + 1 = 6) (h9 : pos.getLastD 0 + 1 = 9) :
    ∀ table : List (String × List Int), (∃ e ∈ table, e.2 = d) →
      ccd_loop note d mc pos table = (note ++ "_6th added 9", mc) := by
  intro table
  induction table with
  | nil => intro h; simp at h
  | cons e rest ih =>
    intro h
    obtain ⟨name, value⟩ := e
    by_cases hv : value = d
    · simp only [ccd_loop, if_pos hv, if_pos (And.intro h6 h9)]
    · have hrest : ∃ e ∈ rest, e.2 = d := by
        obtain ⟨x, hx, hx2⟩ := h
        rcases List.mem_cons.mp hx with hx' | hx'
        · rw [hx'] at hx2; exact absurd hx2 hv
        · exact ⟨x, hx', hx2⟩
      simp only [ccd_loop, if_neg hv]
      exact ih hrest

theorem degree_data_scale_mem {ms mc : List Note} {note : Note} {d : List Int} {r : List Note}
    (h : degree_data ms mc note = some (d, r)) : ∀ x ∈ r, x ∈ ms := by
  intro x hx
  unfold degree_data at h
  split at h
  · exact absurd h (by simp)
  · split at h
    · exact absurd h (by simp)
    · split at h
      · exact absurd h (by simp)
      · split at h
        · exact absurd h (by simp)
        · split at h
          · exact absurd h (by simp)
          · split at h
            · have h' := Option.some.inj h
              have hr : r = rotl ms _ := (congrArg Prod.snd h').symm
              rw [hr] at hx
              exact mem_rotl.mp hx
            · exact absurd h (by simp)

theorem chord_entry_notes {sd : List Int} {sr : List Note} {pos : List Nat}
    {e : String × List String} (h : chord_entry sd sr pos = some e) :
    ∀ n ∈ e.2, n ≠ "" → ∃ x ∈ sr, n = noteStr x := by
  intro n hn hne
  unfold chord_entry at h
  split at h
  · exact absurd h (by simp)
  · split at h
    · exact absurd h (by simp)
    · rename_i chord_diff hdiff notes hnotes
      have h' := Option.some.inj h
      rw [← h', construct_chord_dict, ccd_loop_snd] at hn
      rcases List.mem_append.mp hn with hmem | hmem
      · obtain ⟨x, hx, hxn⟩ := List.mem_map.mp hmem
        exact ⟨x, mem_of_getElem?_eq (omap_mem hnotes x hx).choose_spec.2, hxn.symm⟩
      · exact absurd (List.eq_of_mem_replicate hmem) hne

/-! ### The claims -/

/-- C8: resolving a mode fails whenever the requested key is not a member of
the chromatic sequence chosen by the mode's spelling convention (flats unless
the mode is lydian); the constructor rejects it rather than normalising. -/
theorem invalid_key_rejected (key : Note) (mode : String)
    (h : key ∉ chromOf mode) : mkChordGenerator key mode = none := by
  unfold mkChordGenerator
  rw [idxOf?_eq_none_of_not_mem h]

/-- Witness for `invalid_key_rejected`: key `D#` under the flat-spelled dorian
mode is rejected. -/
theorem invalid_key_rejected_witness : mkChordGenerator Note.Ds "dorian" = none :=
  invalid_key_rejected Note.Ds "dorian" (by decide)

/-- C7: chord enumeration is deterministic and idempotent: running
`get_chords` a second time with the same argument on the state produced by the
first run rebuilds the identical catalog and leaves the state unchanged
(the computation depends only on the key-derived fields, which `get_chords`
never modifies). -/
theorem get_chords_idempotent (st st1 st2 : ChordGenerator) (chord_length : String)
    (h1 : get_chords st chord_length = some st1)
    (h2 : get_chords st1 chord_length = some st2) :
    st2.chords_dict = st1.chords_dict ∧ st2 = st1 := by
  unfold get_chords at h1 h2
  split at h1
  · exact absurd h1 (by simp)
  · rename_i entries hent
    have hst1 := Option.some.inj h1
    subst hst1
    split at h2
    · exact absurd h2 (by simp)
    · rename_i entries2 hent2
      have hst2 := Option.some.inj h2
      subst hst2
      dsimp only at hent2 ⊢
      rw [hent] at hent2
      have he : entries = entries2 := Option.some.inj hent2
      subst he
      exact ⟨rfl, rfl⟩

/-- C2 (amended): if the last two selected degree positions are the 6th and
9th scale degrees (1-indexed) and the chord's interval signature matches at
least one entry of the chord-quality table, the classifier's quality is forced
to `6th added 9`.  (Without a matching entry the loop never reaches the
special case; see the counterexample.) -/
theorem sixth_added_nine_needs_match (d : List Int) (mc : List String) (pos : List Nat)
    (h6 : pos.dropLast.getLastD 0 + 1 = 6) (h9 : pos.getLastD 0 + 1 = 9)
    (hmatch : ∃ e ∈ chord_names_dict, e.2 = d) :
    construct_chord_dict d mc pos chord_names_dict = (mc.headD "" ++ "_6th added 9", mc) :=
  ccd_loop_of_match69 _ _ _ _ h6 h9 _ hmatch

/-- Witness for `sixth_added_nine_needs_match`: the 1-3-5-6-9 chord on the
ionian root (signature `[0,0,0,0,0]`, which matches `Major 9th`) is renamed
`6th added 9`. -/
theorem sixth_added_nine_needs_match_witness :
    construct_chord_dict [0, 0, 0, 0, 0] ["C", "E", "G", "A", "D", "", ""] [0, 2, 4, 5, 8]
      chord_names_dict
      = (["C", "E", "G", "A", "D", "", ""].headD "" ++ "_6th added 9",
         ["C", "E", "G", "A", "D", "", ""]) :=
  sixth_added_nine_needs_match [0, 0, 0, 0, 0] ["C", "E", "G", "A", "D", "", ""]
    [0, 2, 4, 5, 8] (by decide) (by decide) (by decide)

/-- C2 (counterexample to the claim as stated): in C dorian, the size-5
pattern `[0,2,4,5,8]` on root C has its last two positions on the 6th and 9th
degrees, but its signature `[0,-1,0,0,0]` matches no table entry, so the
catalog records `C_Unknown` — not `C_6th added 9` as the claim requires
regardless of table match. -/
theorem sixth_added_nine_unmatched_cex :
    (catalogOf Note.C "dorian" "5").map
        (fun cat => (catFind "C_6th added 9" cat, catFind "C_Unknown" cat))
      = some (none, some ["C", "Eb", "G", "A", "D", "", ""]) := by
  decide

/-- C9: an unmatched interval signature is not an error: the classifier yields
the `{root}_Unknown` item, and the enumeration inserts exactly one catalog
item per (scale degree, pattern) pair, so the catalog stays total. -/
theorem unknown_total (d : List Int) (mc : List String) (pos : List Nat)
    (hnm : ∀ e ∈ chord_names_dict, e.2 ≠ d)
    (key : Note) (mode chord_length : String) (st st' : ChordGenerator)
    (pats : List (List Nat))
    (_h1 : mkChordGenerator key mode = some st)
    (h2 : get_chords st chord_length = some st')
    (h3 : get_chord_positions chord_length = some pats) :
    construct_chord_dict d mc pos chord_names_dict = (mc.headD "" ++ "_Unknown", mc) ∧
      Option.map List.length st'.chords_dict = some (st.mode_scale.length * pats.length) := by
  constructor
  · exact ccd_loop_of_no_match _ _ _ _ _ hnm
  · unfold get_chords at h2
    split at h2
    · exact absurd h2 (by simp)
    · rename_i entries hent
      have hst' := Option.some.inj h2
      subst hst'
      dsimp only
      unfold all_entries at hent
      split at hent
      · exact absurd hent (by simp)
      · rename_i pats' hpats
        have hpp : pats = pats' := Option.some.inj (h3.symm.trans hpats)
        subst hpp
        split at hent
        · exact absurd hent (by simp)
        · rename_i ll hll
          have hfl := Option.some.inj hent
          have hlen : ∀ y ∈ ll, y.length = pats.length := by
            intro y hy
            obtain ⟨note, hnote, hde⟩ := omap_mem hll y hy
            unfold degree_entries at hde
            split at hde
            · exact absurd hde (by simp)
            · exact omap_length hde
          rw [← hfl, Option.map_some', flatten_length_const pats.length ll hlen,
            omap_length hll]

/-- C6: every non-empty note in every catalog item is a member of the mode's
7-note scale — chord construction selects notes only from the duplicated
rolled mode scale and never introduces out-of-scale tones. -/
theorem chords_within_scale (key : Note) (mode chord_length : String)
    (es : List (String × List String)) (scale : List Note)
    (h1 : catalogOf key mode chord_length = some es)
    (h2 : scaleOf key mode = some scale)
    (e : String × List String) (he : e ∈ es)
    (n : String) (hn : n ∈ e.2) (hne : n ≠ "") :
    n ∈ scale.map noteStr := by
  unfold catalogOf at h1
  split at h1
  · exact absurd h1 (by simp)
  · rename_i st hmk
    split at h1
    · exact absurd h1 (by simp)
    · rename_i st' hgc
      unfold scaleOf at h2
      rw [hmk] at h2
      have hsc : scale = st.mode_scale := (Option.some.inj h2).symm
      subst hsc
      unfold get_chords at hgc
      split at hgc
      · exact absurd hgc (by simp)
      · rename_i entries hent
        have hst' := Option.some.inj hgc
        subst hst'
        dsimp only at h1
        have hes : entries = es := Option.some.inj h1
        subst hes
        unfold all_entries at hent
        split at hent
        · exact absurd hent (by simp)
        · rename_i pats hpats
          split at hent
          · exact absurd hent (by simp)
          · rename_i ll hll
            have hfl := Option.some.inj hent
            rw [← hfl] at he
            obtain ⟨y, hy, hey⟩ := List.mem_flatten.mp he
            obtain ⟨note, hnote, hde⟩ := omap_mem hll y hy
            unfold degree_entries at hde
            split at hde
            · exact absurd hde (by simp)
            · rename_i sd rms hdd
              obtain ⟨pos, hpos, hce⟩ := omap_mem hde e hey
              obtain ⟨x, hx, hxn⟩ := chord_entry_notes hce n hn hne
              have hxr : x ∈ rms := by
                rcases List.mem_append.mp hx with h' | h'
                · exact h'
                · exact h'
              have hxs : x ∈ st.mode_scale := degree_data_scale_mem hdd x hxr
              exact List.mem_map.mpr ⟨x, hxs, hxn.symm⟩

/-- Witness for `get_chords_idempotent`: key C ionian, size-3 request. -/
theorem get_chords_idempotent_witness :
    genC_ionian_filled.chords_dict = genC_ionian_filled.chords_dict ∧
      genC_ionian_filled = genC_ionian_filled :=
  get_chords_idempotent genC_ionian genC_ionian_filled genC_ionian_filled "3"
    (by decide) (by decide)

/-- Witness for `unknown_total`: the signature `[7]` matches nothing and
classifies as `C_Unknown`; the size-3 run on C ionian inserts `7 * 1`
catalog items. -/
theorem unknown_total_witness :
    construct_chord_dict [7] ["C"] [0] chord_names_dict
        = (["C"].headD "" ++ "_Unknown", ["C"]) ∧
      Option.map List.length genC_ionian_filled.chords_dict
        = some (genC_ionian.mode_scale.length * [[0, 2, 4]].length) :=
  unknown_total [7] ["C"] [0] (by decide) Note.C "ionian" "3" genC_ionian
    genC_ionian_filled [[0, 2, 4]] (by decide) (by decide) (by decide)

/-- Witness for `chords_within_scale`: the note E of `C_Major` in the size-3
C-ionian catalog lies in the ionian scale of C. -/
theorem chords_within_scale_witness :
    "E" ∈ ([Note.C, Note.D, Note.E, Note.F, Note.G, Note.A, Note.B].map noteStr) :=
  chords_within_scale Note.C "ionian" "3" catC_ionian_3
    [Note.C, Note.D, Note.E, Note.F, Note.G, Note.A, Note.B]
    (by decide) (by decide)
    ("C_Major", ["C", "E", "G", "", "", "", ""]) (by decide)
    "E" (by decide) (by decide)

/-- C5: size-3 enumeration for key C dorian maps `C_Minor` to the padded
record of `[C, Eb, G]`; stripping the padding leaves exactly `[C, Eb, G]`. -/
theorem dorian_root_minor :
    (catalogOf Note.C "dorian" "3").map (fun cat => catFind "C_Minor" cat)
        = some (some ["C", "Eb", "G", "", "", "", ""]) ∧
      ["C", "Eb", "G", "", "", "", ""].filter (fun s => s != "") = ["C", "Eb", "G"] := by
  exact ⟨by decide, by decide⟩

/-- C3 (counterexample to the claim as stated): in the size-3 catalog of key C
lydian the 4th scale degree is F# (as the claim says), but its interval
signature is `[0,-1,-1]` — the diminished one, not the augmented `[0,0,1]` —
so the catalog holds `F#_Diminished` and no `F#_Augmented` item. -/
theorem lydian_fourth_degree_not_augmented :
    (catalogOf Note.C "lydian" "3").map
        (fun cat => (catFind "F#_Augmented" cat, catFind "F#_Diminished" cat))
      = some (none, some ["F#", "A", "C", "", "", "", ""]) ∧
      (scaleOf Note.C "lydian").map (fun sc => sc[3]?) = some (some Note.Fs) ∧
      ((mkChordGenerator Note.C "lydian").bind
          (fun st => degree_data st.mode_scale st.mode_chromatic Note.Fs)).map
        (fun p => [p.1[0]?, p.1[2]?, p.1[4]?])
      = some [some 0, some (-1), some (-1)] := by
  exact ⟨by decide, by decide, by decide⟩

/-- C3 (amended): size-3 enumeration for key C lydian contains `C_Major` →
`[C, E, G]` (padded record, padding strips to `[C, E, G]`), and the entry
built on the 4th scale degree (root F#) is `F#_Diminished`, the raised 4th
producing the diminished signature `[0,-1,-1]` there. -/
theorem lydian_catalog_amended :
    (catalogOf Note.C "lydian" "3").map
        (fun cat => (catFind "C_Major" cat, catFind "F#_Diminished" cat))
      = some (some ["C", "E", "G", "", "", "", ""], some ["F#", "A", "C", "", "", "", ""]) ∧
      ["C", "E", "G", "", "", "", ""].filter (fun s => s != "") = ["C", "E", "G"] := by
  exact ⟨by decide, by decide⟩

/-- C4: for each of the 7 church modes with key C the resolved mode scale has
exactly 7 notes, starts with C, and its notes denote pairwise distinct
chromatic pitch positions. -/
theorem mode_scale_invariants (m : String) (st : ChordGenerator)
    (hm : m ∈ modes7) (hst : mkChordGenerator Note.C m = some st) :
    st.mode_scale.length = 7 ∧ st.mode_scale.head? = some Note.C ∧
      (st.mode_scale.map pitchClass).Nodup := by
  have key : ∀ m0 ∈ modes7, scaleInvariantsOk m0 = true := by decide
  have h := key m hm
  unfold scaleInvariantsOk at h
  split at h
  · rename_i st0 heq
    have hs : st0 = st := Option.some.inj (heq.symm.trans hst)
    subst hs
    simp only [Bool.and_eq_true, beq_iff_eq, decide_eq_true_eq] at h
    exact ⟨h.1.1, h.1.2, h.2⟩
  · rename_i heq
    rw [heq] at hst
    exact absurd hst (by simp)

/-- Witness for `mode_scale_invariants`: the lydian mode of C. -/
theorem mode_scale_invariants_witness :
    genC_lydian.mode_scale.length = 7 ∧ genC_lydian.mode_scale.head? = some Note.C ∧
      (genC_lydian.mode_scale.map pitchClass).Nodup :=
  mode_scale_invariants "lydian" genC_lydian (by decide) (by decide)

/-- A signature matching two or more chord-quality-table entries can only be
`[0,0,0,0]` (shared by `Major 7th`, `6th` and `Added 9th`). -/
theorem multi_match_signature {d : List Int}
    (h : 2 ≤ (chord_names_dict.filter (fun e => e.2 == d)).length) : d = [0, 0, 0, 0] := by
  have hne : chord_names_dict.filter (fun e => e.2 == d) ≠ [] := by
    intro hnil
    rw [hnil] at h
    simp at h
  obtain ⟨x, hx⟩ := List.exists_mem_of_ne_nil _ hne
  obtain ⟨hx1, hx2⟩ := List.mem_filter.mp hx
  have hd : x.2 = d := eq_of_beq hx2
  subst hd
  have key : ∀ x0 ∈ chord_names_dict,
      2 ≤ (chord_names_dict.filter (fun e => e.2 == x0.2)).length → x0.2 = [0, 0, 0, 0] := by
    decide
  exact key x hx1 h

/-- C1: for a pattern of the enumerator whose signature has length at least 4
and matches several table entries, the classifier returns exactly the entry
whose name contains the decimal string of the 1-indexed final selected degree
position: the spec-side candidate list is a singleton and the returned key is
the root joined with that single name (so `6th`, `Major 7th` and `Added 9th`
are never confused). -/
theorem disambiguation_final_degree (d : List Int) (mc : List String) (pos : List Nat)
    (hp : pos ∈ all_patterns) (hl : d.length = pos.length)
    (hmulti : 2 ≤ (chord_names_dict.filter (fun e => e.2 == d)).length) :
    construct_chord_dict d mc pos chord_names_dict
        = (mc.headD "" ++ "_" ++ (specDisambiguated d pos).headD "", mc) ∧
      (specDisambiguated d pos).length = 1 := by
  have hd := multi_match_signature hmulti
  subst hd
  rw [show all_patterns
      = [[0, 2, 4], [0, 2, 4, 5], [0, 2, 4, 6], [0, 2, 4, 8], [0, 2, 4, 5, 8],
         [0, 2, 4, 6, 8], [0, 2, 4, 6, 8, 10], [0, 2, 4, 6, 8, 10, 12]] from rfl] at hp
  simp only [List.mem_cons, List.not_mem_nil, or_false] at hp
  rcases hp with rfl | rfl | rfl | rfl | rfl | rfl | rfl | rfl
  · exact absurd hl (by decide)
  · exact ⟨rfl, rfl⟩
  · exact ⟨rfl, rfl⟩
  · exact ⟨rfl, rfl⟩
  · exact absurd hl (by decide)
  · exact absurd hl (by decide)
  · exact absurd hl (by decide)
  · exact absurd hl (by decide)

/-- Witness for `disambiguation_final_degree`: signature `[0,0,0,0]` on the
pattern `[0,2,4,6]` (final degree 7) resolves to `Major 7th`. -/
theorem disambiguation_final_degree_witness :
    construct_chord_dict [0, 0, 0, 0] ["C", "E", "G", "B", "", "", ""] [0, 2, 4, 6]
        chord_names_dict
        = (["C", "E", "G", "B", "", "", ""].headD "" ++ "_"
            ++ (specDisambiguated [0, 0, 0, 0] [0, 2, 4, 6]).headD "",
           ["C", "E", "G", "B", "", "", ""]) ∧
      (specDisambiguated [0, 0, 0, 0] [0, 2, 4, 6]).length = 1 :=
  disambiguation_final_degree [0, 0, 0, 0] ["C", "E", "G", "B", "", "", ""] [0, 2, 4, 6]
    (by decide) (by decide) (by decide)

/-- C10: for every key of the mode's chosen chromatic spelling and every
requested size string over {3,...,7}, the whole enumeration (constructor plus
`get_chords`) completes without a failed lookup or out-of-range index. -/
theorem enumeration_succeeds (key : Note) (mode chord_length : String)
    (hm : mode ∈ modes7) (hk : key ∈ chromOf mode)
    (hc : ∀ c ∈ splitDash chord_length, c ∈ ["3", "4", "5", "6", "7"]) :
    ((mkChordGenerator key mode).bind (fun st => get_chords st chord_length)).isSome := by
  have hcfg : ∀ m0 ∈ modes7, configOk m0 = true := by decide
  have hall : (chromOf mode).all (keyOk mode) = true := by
    have h := hcfg mode hm
    unfold configOk at h
    exact h
  have h1 : keyOk mode key = true := List.all_eq_true.mp hall key hk
  unfold keyOk at h1
  split at h1
  · rename_i st hmk
    rw [hmk]
    show (get_chords st chord_length).isSome
    have hps : ∀ c ∈ splitDash chord_length, (positions_dict c).isSome := by
      have hfive : ∀ c ∈ (["3", "4", "5", "6", "7"] : List String),
          (positions_dict c).isSome := by decide
      intro c hcm
      exact hfive c (hc c hcm)
    have hpat := omap_isSome hps
    obtain ⟨ys, hys⟩ := Option.isSome_iff_exists.mp hpat
    have hgcp : get_chord_positions chord_length = some ys.flatten := by
      unfold get_chord_positions
      rw [hys]
      rfl
    have hidx : ∀ p ∈ ys.flatten, ∀ i ∈ p, i < 14 := by
      intro p hp i hip
      obtain ⟨y, hy, hpy⟩ := List.mem_flatten.mp hp
      obtain ⟨c, hcm, hpc⟩ := omap_mem hys y hy
      have hbound : ∀ c0 ∈ (["3", "4", "5", "6", "7"] : List String),
          ∀ p0 ∈ (positions_dict c0).getD [], ∀ i0 ∈ p0, i0 < 14 := by decide
      have hyd : y = (positions_dict c).getD [] := by rw [hpc]; rfl
      exact hbound c (hc c hcm) p (hyd ▸ hpy) i hip
    have hde : (omap
        (fun note => degree_entries st.mode_scale st.mode_chromatic note ys.flatten)
        st.mode_scale).isSome := by
      apply omap_isSome
      intro note hnote
      have h2 := List.all_eq_true.mp h1 note hnote
      unfold degreeOk at h2
      split at h2
      · rename_i d r hdd
        simp only [Bool.and_eq_true, beq_iff_eq] at h2
        unfold degree_entries
        rw [hdd]
        apply omap_isSome
        intro pos hpos
        have hd14 : (d ++ d).length = 14 := by rw [List.length_append, h2.1]
        have hr14 : (r ++ r).length = 14 := by rw [List.length_append, h2.2]
        have hcd : (omap (fun i => (d ++ d)[i]?) pos).isSome := by
          apply omap_isSome
          intro i hi
          have hlt : i < (d ++ d).length := by rw [hd14]; exact hidx pos hpos i hi
          rw [List.getElem?_eq_getElem hlt]
          rfl
        have hnt : (omap (fun i => (r ++ r)[i]?) pos).isSome := by
          apply omap_isSome
          intro i hi
          have hlt : i < (r ++ r).length := by rw [hr14]; exact hidx pos hpos i hi
          rw [List.getElem?_eq_getElem hlt]
          rfl
        unfold chord_entry
        cases hcd' : omap (fun i => (d ++ d)[i]?) pos with
        | none => rw [hcd'] at hcd; simp at hcd
        | some cdl =>
          cases hnt' : omap (fun i => (r ++ r)[i]?) pos with
          | none => rw [hnt'] at hnt; simp at hnt
          | some ntl => rfl
      · exact absurd h2 (by simp)
    obtain ⟨ll, hll⟩ := Option.isSome_iff_exists.mp hde
    have hform : all_entries st.mode_scale st.mode_chromatic chord_length
        = some ll.flatten := by
      unfold all_entries
      rw [hgcp]
      change (match omap
          (fun note => degree_entries st.mode_scale st.mode_chromatic note ys.flatten)
          st.mode_scale with
        | none => none
        | some ll0 => some ll0.flatten) = some ll.flatten
      rw [hll]
    unfold get_chords
    rw [hform]
    rfl
  · exact absurd h1 (by simp)

/-- Witness for `enumeration_succeeds`: key D# is a member of the sharp-spelled
chromatic scale of lydian, and its size-3 enumeration completes. -/
theorem enumeration_succeeds_witness :
    ((mkChordGenerator Note.Ds "lydian").bind (fun st => get_chords st "3")).isSome :=
  enumeration_succeeds Note.Ds "lydian" "3" (by decide) (by decide) (by decide)

end ChordConstructor
